import Mathlib

/-!
Verification development for the query-embeddings ingestion pipeline
(`src/query_embeddings/parsing.rs` of the granne repository).

The Rust code is shallowly embedded:
* text lines are `List Char`, file paths are raw byte lists (`PathBuf`
  compares by bytes), file contents are raw byte lists;
* the external collaborators that the spec scopes out (serde_json string
  decoding, `BufReader::lines`, flate2 gzip decoding, `Path::to_str`,
  the filesystem) are abstract function parameters bundled in `Ext`/`FS`;
* panics (`unwrap`/`expect`) are `Option.none`; a `none` result models the
  whole invocation aborting;
* rayon's `par_iter().map(f).collect()` is modelled by `parMapSched`: the
  workers run in an arbitrary schedule (a list of indices in completion
  order) and every result is bound back to its index slot before the
  collection is assembled, which is exactly rayon's indexed-collect
  semantics; theorems quantify over the schedule;
* progress output (`pbr`, `println!`) is modelled as an event list returned
  alongside the data, so that the `show_progress` flag visibly enters the
  definitions.
-/

namespace Granne

/-- Decoded text line (Rust `String` contents). -/
abbrev Line := List Char

/-- File path as its raw bytes (`PathBuf` orders and compares by bytes). -/
abbrev MPath := List Nat

/-- Raw file contents. -/
abbrev Bytes := List Nat

/-- A query dataset: ordered token-id sequences (models `QueryVec`,
whose container behaviour `push`/`extend_from_queryvec` is list append). -/
abbrev QueryVec := List (List Nat)

/-- Word-to-id mapping: models `FnvHashMap<String, usize>` as an
association list whose newest binding comes first. -/
abbrev WordMap := List (Line × Nat)

/-- Rust `str::split(sep)`: splits into the (possibly empty) segments
between occurrences of `sep`; always yields at least one segment. -/
def splitOnChar (sep : Char) : List Char → List (List Char)
  | [] => [[]]
  | c :: cs =>
    if c = sep then [] :: splitOnChar sep cs
    else
      match splitOnChar sep cs with
      | [] => [[c]]
      | w :: ws => (c :: w) :: ws

/-- Accumulator loop for `splitWhitespace`. -/
def splitWsAux : List Char → List Char → List (List Char)
  | [], acc => if acc.isEmpty then [] else [acc.reverse]
  | c :: cs, acc =>
    if c.isWhitespace then
      if acc.isEmpty then splitWsAux cs [] else acc.reverse :: splitWsAux cs []
    else splitWsAux cs (c :: acc)

/-- Rust `str::split_whitespace`: maximal runs of non-whitespace characters. -/
def splitWhitespace (l : List Char) : List (List Char) := splitWsAux l []

/-- HashMap insertion: a new binding replaces any previous binding of the
same key (`HashMap::insert` / `collect` duplicate semantics). -/
def hmInsert (m : WordMap) (k : Line) (v : Nat) : WordMap :=
  (k, v) :: m.filter (fun p => decide (p.1 ≠ k))

/-- Loop of the vocabulary loader: insert each word with its line index
(`lines().enumerate().map(|(i, w)| (decode w, i)).collect()`), starting at
line index `i`. -/
def buildMapFrom : Nat → List Line → WordMap → WordMap
  | _, [], m => m
  | i, w :: ws, m => buildMapFrom (i + 1) ws (hmInsert m w i)

/-- Vocabulary table built from the decoded word lines
(`parse_queries_and_save_to_disk`, lines 17-25). -/
def buildWordMap (ws : List Line) : WordMap := buildMapFrom 0 ws []

/-- Index of the last occurrence of `k` in a list of lines (meaningful when
`k` occurs); used to state the last-write-wins behaviour of the vocabulary
loader. -/
def lastIdxOf (k : Line) : List Line → Nat
  | [] => 0
  | _ :: ws => if k ∈ ws then lastIdxOf k ws + 1 else 0

/-- Rust `qs.split(':').last()` (line 143): the segment after the last `:`. -/
def afterLastColon (l : Line) : Option Line := (splitOnChar ':' l).getLast?

/-- Total form of `afterLastColon`; `splitOnChar` never returns `[]`
so the two agree (see `tokenizeLine_total`). -/
def afterLastColonD (l : Line) : Line := (splitOnChar ':' l).getLastD []

/-- Tokenization of one decoded query line (`parse_file`, lines 143-151):
take the text after the last `:`, split it on whitespace, keep the ids of
the words found in the vocabulary, in order; `none` models the
`last().unwrap()` panic branch. -/
def tokenizeLine (wordIds : WordMap) (qs : Line) : Option (List Nat) :=
  (afterLastColon qs).map
    (fun t => (splitWhitespace t).filterMap (fun w => wordIds.lookup w))

/-- Total form of `tokenizeLine` (the panic branch is unreachable). -/
def tokenizeLineD (wordIds : WordMap) (qs : Line) : List Nat :=
  (splitWhitespace (afterLastColonD qs)).filterMap (fun w => wordIds.lookup w)

/-- External collaborators, scoped out by the spec and modelled as abstract
functions: `none` is the error case, which the code turns into a panic. -/
structure Ext where
  jsonStr : Line → Option Line
  linesOf : Bytes → Option (List Line)
  gunzip : Bytes → Option Bytes
  utf8 : MPath → Option Line

/-- Per-line body of `parse_file` (lines 139-152): decode the raw line as a
JSON string literal, then tokenize it; each `unwrap` is a `none`. -/
def parseLines (ext : Ext) (wordIds : WordMap) (ls : List Line) : Option QueryVec :=
  ls.mapM (fun l => (ext.jsonStr l).bind (tokenizeLine wordIds))

/-- Function `parse_file` (lines 133-155) on a raw byte stream: read lines,
decode and tokenize each, pushing one sequence per line. -/
def parse_file (ext : Ext) (wordIds : WordMap) (stream : Bytes) : Option QueryVec :=
  (ext.linesOf stream).bind (parseLines ext wordIds)

/-- Abstract filesystem: directory test, directory listing (in unspecified
order) and file reading; `none` models an I/O error. -/
structure FS where
  isDir : MPath → Bool
  readDir : MPath → Option (List MPath)
  readFile : MPath → Option Bytes

/-- Order used by `parts.sort()` (line 77): `PathBuf` compares
lexicographically by its raw bytes, i.e. the lexicographic linear order on
`List Nat`. -/
abbrev pathLe : MPath → MPath → Prop := (· ≤ ·)

/-- Rust `ends_with(".gz")` on the path rendered as text (line 93). -/
def endsWithGz (s : Line) : Bool := List.isSuffixOf (String.toList ".gz") s

/-- Work done for one part inside the parallel map (lines 90-104): open the
file, render the path as UTF-8 to test the `.gz` suffix, gunzip if needed,
and run `parse_file`; every `expect`/`unwrap` is a `none`. -/
def partParse (ext : Ext) (wordIds : WordMap) (readF : MPath → Option Bytes)
    (part : MPath) : Option QueryVec :=
  match readF part with
  | none => none
  | some bytes =>
    match ext.utf8 part with
    | none => none
    | some s =>
      if endsWithGz s then
        match ext.gunzip bytes with
        | none => none
        | some plain => parse_file ext wordIds plain
      else parse_file ext wordIds bytes

/-- Indexed parallel collect (rayon `par_iter().map(f).collect()`): workers
run in schedule order `sched`, each binding its result to its index; the
collection is then read off slot by slot. `none` only when the schedule
fails to cover every index, which no real execution does. -/
def parMapSched (sched : List Nat) (f : α → β) (xs : List α) : Option (List β) :=
  (List.range xs.length).mapM
    (fun i => (sched.filterMap (fun j => (xs[j]?).map (fun x => (j, f x)))).lookup i)

/-- Predicate stating that schedule `sched` runs every worker index below `n`
(every real execution of the worker pool does). -/
def coversSched (sched : List Nat) (n : Nat) : Prop :=
  ∀ i ∈ List.range n, i ∈ sched

instance (sched : List Nat) (n : Nat) : Decidable (coversSched sched n) :=
  inferInstanceAs (Decidable (∀ i ∈ List.range n, i ∈ sched))

/-- Part enumeration (lines 72-81): a directory's entries sorted by path,
or the path itself as the sole part. -/
def enumerateParts (fs : FS) (path : MPath) : Option (List MPath) :=
  if fs.isDir path then
    (fs.readDir path).map (fun es => List.insertionSort pathLe es)
  else some [path]

/-- Function `parse_queries_in_directory_or_file` (lines 71-130): enumerate
parts, parse them in parallel, then concatenate the per-part datasets in
part order with `extend_from_queryvec`; paired with the progress events. -/
def parse_queries_in_directory_or_file (fs : FS) (ext : Ext) (wordIds : WordMap)
    (showProgress : Bool) (sched : List Nat) (path : MPath) :
    Option QueryVec × List Nat :=
  match enumerateParts fs path with
  | none => (none, [])
  | some parts =>
    let ev1 : List Nat := if showProgress then parts.map (fun _ => 1) else []
    match parMapSched sched (partParse ext wordIds fs.readFile) parts with
    | none => (none, ev1)
    | some res =>
      match res.mapM id with
      | none => (none, ev1)
      | some qvs =>
        (some (qvs.foldl (fun acc q => acc ++ q) []),
          ev1 ++ (if showProgress then qvs.map (fun _ => 1) else []))

/-- Vocabulary-loading phase of `parse_queries_and_save_to_disk`
(lines 17-25): read the word file, decode every line as a JSON string and
collect the `(word, line index)` pairs into a map. -/
def loadWordIds (fs : FS) (ext : Ext) (wordsPath : MPath) : Option WordMap :=
  (fs.readFile wordsPath).bind fun wb =>
  (ext.linesOf wb).bind fun raw =>
  (raw.mapM ext.jsonStr).map buildWordMap

/-- Function `parse_queries_and_save_to_disk` (lines 16-33): build the
vocabulary, parse the queries; the produced dataset is the data written to
the output file. -/
def parse_queries_and_save_to_disk (fs : FS) (ext : Ext)
    (queriesPath wordsPath : MPath) (showProgress : Bool) (sched : List Nat) :
    Option QueryVec × List Nat :=
  match loadWordIds fs ext wordsPath with
  | none => (none, [])
  | some wordIds =>
    parse_queries_in_directory_or_file fs ext wordIds showProgress sched queriesPath

/-- Index range of chunk `i` (line 58): `i*chunk_size .. min((i+1)*chunk_size, n)`. -/
def chunkRange (cs n i : Nat) : List Nat :=
  List.range' (i * cs) (min ((i + 1) * cs) n - i * cs)

/-- Chunked vectorization loop of `compute_query_vectors_and_save_to_disk`
(lines 48-67) with the chunk count as a parameter (the source fixes it to
100): `n` is the query count, `qAt i` the vector of query `i`
(`queries.at(i)`, an external collaborator); the first component is the
sequence of vectors written to the output file, the second the progress
events. -/
def cqvChunked (numChunks : Nat) (n : Nat) (qAt : Nat → α) (showProgress : Bool) :
    List α × List Nat :=
  (List.range numChunks).foldl
    (fun acc i =>
      (acc.1 ++ (chunkRange ((n + numChunks - 1) / numChunks) n i).map qAt,
        acc.2 ++ (if showProgress then
          [((chunkRange ((n + numChunks - 1) / numChunks) n i).map qAt).length]
        else [])))
    ([], [])

/-- Function `compute_query_vectors_and_save_to_disk` (lines 36-68):
`num_chunks = 100` (line 55). -/
def compute_query_vectors_and_save_to_disk (n : Nat) (qAt : Nat → α)
    (showProgress : Bool) : List α × List Nat :=
  cqvChunked 100 n qAt showProgress

/-- Modelled from the spec (§4.4, step "computing all N vectors at once"):
the unchunked reference computation, one vector per query in query order. -/
def allVectors (n : Nat) (qAt : Nat → α) : List α := (List.range n).map qAt

/-- Modelled from the spec (§4.3 contract): tokenize each part independently
and concatenate the per-part results in ascending lexicographic order of
part path (directory case) or tokenize the single file (file case). -/
def collectorSpec (fs : FS) (ext : Ext) (wordIds : WordMap) (path : MPath) :
    Option QueryVec :=
  if fs.isDir path then
    (fs.readDir path).bind fun entries =>
      ((List.insertionSort pathLe entries).mapM
        (partParse ext wordIds fs.readFile)).map List.flatten
  else partParse ext wordIds fs.readFile path

/-! Concrete fixtures used by the closed instantiations of the theorems. -/

/-- Vocabulary fixture: red ↦ 0, car ↦ 1. -/
def exVocab : WordMap := [(String.toList "red", 0), (String.toList "car", 1)]

/-- External-collaborator fixture: identity JSON-string decode, one
hard-wired query file content and one hard-wired gzip stream. -/
def wExt : Ext where
  jsonStr := fun l => some l
  linesOf := fun b =>
    if b = [20] then some [String.toList "q1:region:red car"] else none
  gunzip := fun b => if b = [10] then some [20] else none
  utf8 := fun p =>
    if p = [1] then some (String.toList "a.gz")
    else if p = [2] then some (String.toList "b")
    else none

/-- Filesystem fixture: `[0]` is a directory listing `[2]` before `[1]`;
`[1]` holds gzip bytes, `[2]` plain bytes, `[3]` bytes under a non-UTF-8
path; everything else is unreadable. -/
def wFS : FS where
  isDir := fun p => decide (p = [0])
  readDir := fun p => if p = [0] then some [[2], [1]] else none
  readFile := fun p =>
    if p = [1] then some [10]
    else if p = [2] then some [20]
    else if p = [3] then some [30]
    else none

/-- Same filesystem with the directory listing permuted. -/
def wFS2 : FS where
  isDir := wFS.isDir
  readDir := fun p => if p = [0] then some [[1], [2]] else none
  readFile := wFS.readFile

/-! Helper lemmas about the tokenizer. -/

theorem splitOnChar_ne_nil (sep : Char) (l : List Char) : splitOnChar sep l ≠ [] := by
  induction l with
  | nil => simp [splitOnChar]
  | cons c cs ih =>
    simp only [splitOnChar]
    split
    · simp
    · split
      · simp
      · simp

theorem afterLastColon_eq_some (l : Line) :
    afterLastColon l = some (afterLastColonD l) := by
  have h := splitOnChar_ne_nil ':' l
  unfold afterLastColon afterLastColonD
  cases hq : (splitOnChar ':' l).getLast? with
  | none => exact absurd (List.getLast?_eq_none_iff.mp hq) h
  | some y => simp [hq]

theorem tokenizeLine_eq_some (wordIds : WordMap) (qs : Line) :
    tokenizeLine wordIds qs = some (tokenizeLineD wordIds qs) := by
  simp [tokenizeLine, afterLastColon_eq_some, tokenizeLineD]

theorem splitOnChar_eq_single (sep : Char) (l : List Char) (h : sep ∉ l) :
    splitOnChar sep l = [l] := by
  induction l with
  | nil => rfl
  | cons c cs ih =>
    simp only [List.mem_cons, not_or] at h
    simp only [splitOnChar]
    rw [if_neg (fun hc => h.1 hc.symm), ih h.2]

theorem filterMap_map_some_sublist (f : α → Option β) (l : List α) :
    ((l.filterMap f).map some).Sublist (l.map f) := by
  induction l with
  | nil => simp
  | cons x xs ih =>
    cases hx : f x with
    | none =>
      simp only [List.filterMap_cons, hx, List.map_cons]
      exact ih.cons _
    | some y =>
      simp only [List.filterMap_cons, hx, List.map_cons]
      exact ih.cons₂ _

/-! Helper lemmas about `mapM` over `Option`. -/

theorem mapM_length_option (g : α → Option β) :
    ∀ (l : List α) (ys : List β), l.mapM g = some ys → ys.length = l.length := by
  intro l
  induction l with
  | nil =>
    intro ys h
    simp only [List.mapM_nil, pure, Option.some.injEq] at h
    simp [← h]
  | cons x xs ih =>
    intro ys h
    simp only [List.mapM_cons, bind, Option.bind_eq_some, pure,
      Option.some.injEq] at h
    obtain ⟨y, hy, ys', hys', rfl⟩ := h
    simp [ih ys' hys']

theorem mapM_eq_none_of_mem (g : α → Option β) :
    ∀ (l : List α) (a : α), a ∈ l → g a = none → l.mapM g = none := by
  intro l
  induction l with
  | nil => intro a ha; cases ha
  | cons x xs ih =>
    intro a ha hga
    rcases List.mem_cons.mp ha with rfl | ha'
    · simp only [List.mapM_cons, hga]
      simp
    · simp only [List.mapM_cons, ih a ha' hga]
      cases g x <;> simp

theorem mapM_singleton (g : α → Option β) (a : α) :
    [a].mapM g = (g a).map (fun y => [y]) := by
  cases hg : g a with
  | none => rw [List.mapM_cons, hg]; rfl
  | some y => rw [List.mapM_cons, hg]; rfl

theorem mapM_map_id (g : α → Option β) (l : List α) :
    (l.map g).mapM id = l.mapM g := by
  induction l with
  | nil => rfl
  | cons x xs ih => simp only [List.map_cons, List.mapM_cons, ih, id]

theorem parseLines_eq (ext : Ext) (wordIds : WordMap) :
    ∀ (ls ds : List Line), ls.mapM ext.jsonStr = some ds →
    parseLines ext wordIds ls = some (ds.map (tokenizeLineD wordIds)) := by
  intro ls
  induction ls with
  | nil =>
    intro ds h
    simp only [List.mapM_nil, pure, Option.some.injEq] at h
    subst h
    rfl
  | cons x xs ih =>
    intro ds h
    simp only [List.mapM_cons, bind, Option.bind_eq_some, pure,
      Option.some.injEq] at h
    obtain ⟨d, hd, ds', hds', rfl⟩ := h
    have htail := ih ds' hds'
    simp only [parseLines] at htail ⊢
    rw [List.mapM_cons, hd]
    simp only [Option.some_bind]
    rw [tokenizeLine_eq_some, htail]
    simp

/-! Helper lemmas about the vocabulary map. -/

theorem lookup_filter_ne (m : WordMap) (w k : Line) (hk : k ≠ w) :
    (m.filter (fun p => decide (p.1 ≠ w))).lookup k = m.lookup k := by
  induction m with
  | nil => rfl
  | cons p m ih =>
    obtain ⟨a, b⟩ := p
    rw [List.filter_cons]
    rcases eq_or_ne a w with rfl | ha
    · rw [if_neg (by simp), ih, List.lookup_cons]
      have hka : (k == a) = false := beq_eq_false_iff_ne.mpr hk
      rw [hka]
    · rw [if_pos (by simp [ha]), List.lookup_cons, List.lookup_cons]
      cases hka : (k == a) with
      | true => rfl
      | false => exact ih

theorem lookup_hmInsert (m : WordMap) (w : Line) (i : Nat) (k : Line) :
    (hmInsert m w i).lookup k = if k = w then some i else m.lookup k := by
  unfold hmInsert
  rw [List.lookup_cons]
  by_cases hk : k = w
  · rw [if_pos hk, beq_iff_eq.mpr hk]
  · rw [if_neg hk, beq_eq_false_iff_ne.mpr hk]
    exact lookup_filter_ne m w k hk

theorem lookup_buildMapFrom (ws : List Line) :
    ∀ (i : Nat) (m : WordMap) (k : Line),
    (buildMapFrom i ws m).lookup k =
      if k ∈ ws then some (i + lastIdxOf k ws) else m.lookup k := by
  induction ws with
  | nil => intro i m k; simp [buildMapFrom]
  | cons w ws ih =>
    intro i m k
    simp only [buildMapFrom]
    rw [ih]
    by_cases hin : k ∈ ws
    · rw [if_pos hin, if_pos (List.mem_cons_of_mem w hin)]
      simp only [lastIdxOf, if_pos hin]
      congr 1
      omega
    · rw [if_neg hin, lookup_hmInsert]
      by_cases hkw : k = w
      · subst hkw
        rw [if_pos rfl, if_pos (List.mem_cons_self k ws)]
        simp [lastIdxOf, hin]
      · rw [if_neg hkw, if_neg (by simp [List.mem_cons, hkw, hin])]

theorem lookup_buildWordMap (ws : List Line) (k : Line) :
    (buildWordMap ws).lookup k =
      if k ∈ ws then some (lastIdxOf k ws) else none := by
  unfold buildWordMap
  rw [lookup_buildMapFrom]
  simp

theorem lastIdxOf_getElem (ws : List Line) (h : ws.Nodup) :
    ∀ (i : Nat) (hi : i < ws.length), lastIdxOf ws[i] ws = i := by
  induction ws with
  | nil => intro i hi; cases hi
  | cons w ws ih =>
    rcases List.nodup_cons.mp h with ⟨hw, hnd⟩
    intro i hi
    cases i with
    | zero =>
      simp only [List.getElem_cons_zero, lastIdxOf]
      rw [if_neg hw]
    | succ j =>
      have hj : j < ws.length := by simpa using hi
      simp only [List.getElem_cons_succ, lastIdxOf]
      rw [if_pos (ws.getElem_mem hj), ih hnd j hj]

theorem length_hmInsert_of_not_mem (m : WordMap) (w : Line) (i : Nat)
    (h : ∀ p ∈ m, p.1 ≠ w) : (hmInsert m w i).length = m.length + 1 := by
  unfold hmInsert
  rw [List.filter_eq_self.mpr (fun p hp => by simp [h p hp])]
  simp

theorem length_buildMapFrom (ws : List Line) :
    ∀ (i : Nat) (m : WordMap), ws.Nodup → (∀ k ∈ ws, ∀ p ∈ m, p.1 ≠ k) →
    (buildMapFrom i ws m).length = m.length + ws.length := by
  induction ws with
  | nil => intro i m _ _; simp [buildMapFrom]
  | cons w ws ih =>
    intro i m hnd hdisj
    rcases List.nodup_cons.mp hnd with ⟨hw, hnd'⟩
    simp only [buildMapFrom]
    have hstep : ∀ k ∈ ws, ∀ p ∈ hmInsert m w i, p.1 ≠ k := by
      intro k hk p hp
      rcases List.mem_cons.mp hp with rfl | hp'
      · intro he
        apply hw
        have hwk : w = k := he
        rw [hwk]
        exact hk
      · exact hdisj k (List.mem_cons_of_mem w hk) p (List.mem_of_mem_filter hp')
    rw [ih (i + 1) (hmInsert m w i) hnd' hstep,
      length_hmInsert_of_not_mem m w i
        (fun p hp => hdisj w (List.mem_cons_self w ws) p hp)]
    simp only [List.length_cons]
    omega

theorem length_buildWordMap (ws : List Line) (h : ws.Nodup) :
    (buildWordMap ws).length = ws.length := by
  unfold buildWordMap
  rw [length_buildMapFrom ws 0 [] h (by intro k _ p hp; cases hp)]
  simp

/-! Helper lemmas about the scheduled parallel collect. -/

theorem lookup_sched_results (sched : List Nat) (f : α → β) (xs : List α)
    (i : Nat) (x : α) (hx : xs[i]? = some x) (hi : i ∈ sched) :
    (sched.filterMap (fun j => (xs[j]?).map (fun x => (j, f x)))).lookup i
      = some (f x) := by
  induction sched with
  | nil => cases hi
  | cons j js ih =>
    rw [List.filterMap_cons]
    by_cases hj : j = i
    · subst hj
      rw [hx]
      simp [List.lookup_cons]
    · rcases List.mem_cons.mp hi with rfl | hi'
      · exact absurd rfl hj
      · cases hxj : xs[j]? with
        | none => simpa using ih hi'
        | some y =>
          have hij : (i == j) = false := beq_eq_false_iff_ne.mpr (Ne.symm hj)
          simp [List.lookup_cons, hij, ih hi']

theorem mapM_lookup_range' (g : Nat → Option β) :
    ∀ (ys : List β) (s : Nat),
    (∀ k (hk : k < ys.length), g (s + k) = some ys[k]) →
    (List.range' s ys.length).mapM g = some ys := by
  intro ys
  induction ys with
  | nil => intro s _; rfl
  | cons y ys ih =>
    intro s h
    have h0 : g s = some y := by simpa using h 0 (by simp)
    have htail : (List.range' (s + 1) ys.length).mapM g = some ys := by
      apply ih
      intro k hk
      have hk' := h (k + 1) (by simpa using Nat.succ_lt_succ hk)
      simpa [Nat.add_assoc, Nat.add_comm 1 k] using hk'
    rw [List.length_cons, List.range'_succ, List.mapM_cons, h0, htail]
    rfl

theorem parMapSched_eq (sched : List Nat) (f : α → β) (xs : List α)
    (h : coversSched sched xs.length) :
    parMapSched sched f xs = some (xs.map f) := by
  unfold parMapSched
  have hlen : (xs.map f).length = xs.length := xs.length_map f
  rw [List.range_eq_range', ← hlen]
  apply mapM_lookup_range'
  intro k hk
  have hk' : k < xs.length := by simpa using hk
  rw [Nat.zero_add,
    lookup_sched_results sched f xs k xs[k]
      (List.getElem?_eq_getElem hk') (h k (List.mem_range.mpr hk'))]
  simp

/-! Helper lemmas about concatenation and chunking. -/

theorem foldl_append_eq_flatten (qvs : List QueryVec) :
    ∀ acc : List (List Nat), qvs.foldl (fun a q => a ++ q) acc = acc ++ qvs.flatten := by
  induction qvs with
  | nil => intro acc; simp
  | cons q qvs ih =>
    intro acc
    simp [List.foldl_cons, ih, List.append_assoc]

theorem foldl_pair_fst (g : Nat → List α) (evf : Nat → List Nat) :
    ∀ (L : List Nat) (a : List α) (e : List Nat),
    (L.foldl (fun acc i => (acc.1 ++ g i, acc.2 ++ evf i)) (a, e)).1
      = a ++ (L.map g).flatten := by
  intro L
  induction L with
  | nil => intro a e; simp
  | cons i L ih =>
    intro a e
    simp [List.foldl_cons, ih, List.append_assoc]

theorem flatten_chunkRange (cs n : Nat) :
    ∀ k : Nat, ((List.range k).map (chunkRange cs n)).flatten
      = List.range' 0 (min (k * cs) n) := by
  intro k
  induction k with
  | zero => simp
  | succ k ih =>
    rw [List.range_succ, List.map_append, List.flatten_append, ih]
    simp only [List.map_cons, List.map_nil, List.flatten_cons, List.flatten_nil,
      List.append_nil]
    unfold chunkRange
    by_cases hk : n ≤ k * cs
    · have h1 : min (k * cs) n = n := Nat.min_eq_right hk
      have h2 : min ((k + 1) * cs) n = n :=
        Nat.min_eq_right (le_trans hk (Nat.mul_le_mul_right cs (Nat.le_succ k)))
      rw [h1, h2]
      have h3 : n - k * cs = 0 := by omega
      rw [h3]
      simp
    · have hlt : k * cs < n := Nat.lt_of_not_le hk
      have h2 : k * cs ≤ min ((k + 1) * cs) n :=
        le_min (Nat.mul_le_mul_right cs (Nat.le_succ k)) (le_of_lt hlt)
      have happ := List.range'_append_1 0 (k * cs) (min ((k + 1) * cs) n - k * cs)
      rw [Nat.zero_add] at happ
      rw [Nat.min_eq_left (le_of_lt hlt), happ]
      congr 1
      omega

theorem le_mul_ceil_div (numChunks n : Nat) (h : 0 < numChunks) :
    n ≤ numChunks * ((n + numChunks - 1) / numChunks) := by
  have hdm := Nat.div_add_mod (n + numChunks - 1) numChunks
  have hmod := Nat.mod_lt (n + numChunks - 1) h
  generalize hgen : numChunks * ((n + numChunks - 1) / numChunks) = t at hdm ⊢
  generalize hgenm : (n + numChunks - 1) % numChunks = r at hdm hmod
  omega

theorem cqvChunked_fst (numChunks n : Nat) (qAt : Nat → α) (sp : Bool)
    (h : 0 < numChunks) :
    (cqvChunked numChunks n qAt sp).1 = allVectors n qAt := by
  unfold cqvChunked
  rw [foldl_pair_fst
    (fun i => (chunkRange ((n + numChunks - 1) / numChunks) n i).map qAt)
    (fun i => if sp then
      [((chunkRange ((n + numChunks - 1) / numChunks) n i).map qAt).length]
    else [])]
  rw [List.nil_append,
    show (fun i => (chunkRange ((n + numChunks - 1) / numChunks) n i).map qAt)
      = (List.map qAt ∘ chunkRange ((n + numChunks - 1) / numChunks) n) from rfl,
    ← List.map_map, ← List.map_flatten, flatten_chunkRange,
    Nat.min_eq_right (le_mul_ceil_div numChunks n h)]
  rw [allVectors, List.range_eq_range']

/-- Same first component of `cqvChunked` independently of the progress flag. -/
theorem cqvChunked_fst_flag (numChunks n : Nat) (qAt : Nat → α) (sp sp' : Bool) :
    (cqvChunked numChunks n qAt sp).1 = (cqvChunked numChunks n qAt sp').1 := by
  unfold cqvChunked
  rw [foldl_pair_fst
      (fun i => (chunkRange ((n + numChunks - 1) / numChunks) n i).map qAt)
      (fun i => if sp then
        [((chunkRange ((n + numChunks - 1) / numChunks) n i).map qAt).length]
      else []),
    foldl_pair_fst
      (fun i => (chunkRange ((n + numChunks - 1) / numChunks) n i).map qAt)
      (fun i => if sp' then
        [((chunkRange ((n + numChunks - 1) / numChunks) n i).map qAt).length]
      else [])]

/-! Helper lemmas about the multi-part collector. -/

theorem insertionSort_perm_eq (es es' : List MPath) (h : es.Perm es') :
    List.insertionSort pathLe es = List.insertionSort pathLe es' := by
  apply List.eq_of_perm_of_sorted (r := pathLe)
  · exact ((List.perm_insertionSort pathLe es).trans h).trans
      (List.perm_insertionSort pathLe es').symm
  · exact List.sorted_insertionSort pathLe es
  · exact List.sorted_insertionSort pathLe es'

theorem parse_qdir_fst_eq (fs : FS) (ext : Ext) (wordIds : WordMap) (sp : Bool)
    (sched : List Nat) (path : MPath) (parts : List MPath)
    (hp : enumerateParts fs path = some parts)
    (hs : coversSched sched parts.length) :
    (parse_queries_in_directory_or_file fs ext wordIds sp sched path).1
      = (parts.mapM (partParse ext wordIds fs.readFile)).map List.flatten := by
  unfold parse_queries_in_directory_or_file
  rw [hp]
  dsimp only
  rw [parMapSched_eq sched _ parts hs]
  dsimp only
  rw [mapM_map_id]
  cases hqs : parts.mapM (partParse ext wordIds fs.readFile) with
  | none => rfl
  | some qvs =>
    dsimp only
    rw [foldl_append_eq_flatten]
    simp

theorem parse_qdir_fst_eq_spec (fs : FS) (ext : Ext) (wordIds : WordMap)
    (sp : Bool) (sched : List Nat) (path : MPath) (parts : List MPath)
    (hp : enumerateParts fs path = some parts)
    (hs : coversSched sched parts.length) :
    (parse_queries_in_directory_or_file fs ext wordIds sp sched path).1
      = collectorSpec fs ext wordIds path := by
  rw [parse_qdir_fst_eq fs ext wordIds sp sched path parts hp hs]
  unfold collectorSpec
  unfold enumerateParts at hp
  by_cases hd : fs.isDir path
  · rw [if_pos hd] at hp ⊢
    cases hre : fs.readDir path with
    | none => rw [hre] at hp; simp at hp
    | some es =>
      rw [hre] at hp
      simp only [Option.map_some', Option.some.injEq] at hp
      subst hp
      rw [Option.some_bind]
  · rw [if_neg hd] at hp ⊢
    simp only [Option.some.injEq] at hp
    subst hp
    rw [mapM_singleton]
    cases hpp : partParse ext wordIds fs.readFile path with
    | none => rfl
    | some qv => simp

theorem parse_qdir_fst_perm (fs fs' : FS) (ext : Ext) (wordIds : WordMap)
    (sp sp' : Bool) (sched sched' : List Nat) (path : MPath)
    (es es' : List MPath)
    (hdir : fs.isDir path = true) (hdir' : fs'.isDir path = true)
    (hrf : fs.readFile = fs'.readFile)
    (hre : fs.readDir path = some es) (hre' : fs'.readDir path = some es')
    (hperm : es.Perm es')
    (hs : coversSched sched (List.insertionSort pathLe es).length)
    (hs' : coversSched sched' (List.insertionSort pathLe es').length) :
    (parse_queries_in_directory_or_file fs ext wordIds sp sched path).1
      = (parse_queries_in_directory_or_file fs' ext wordIds sp' sched' path).1 := by
  have hp : enumerateParts fs path = some (List.insertionSort pathLe es) := by
    unfold enumerateParts
    rw [if_pos hdir, hre]
    rfl
  have hp' : enumerateParts fs' path = some (List.insertionSort pathLe es') := by
    unfold enumerateParts
    rw [if_pos hdir', hre']
    rfl
  rw [parse_qdir_fst_eq fs ext wordIds sp sched path _ hp hs,
    parse_qdir_fst_eq fs' ext wordIds sp' sched' path _ hp' hs',
    insertionSort_perm_eq es es' hperm, hrf]

theorem parse_qdir_fst_flag (fs : FS) (ext : Ext) (wordIds : WordMap)
    (sched : List Nat) (path : MPath) (sp sp' : Bool) :
    (parse_queries_in_directory_or_file fs ext wordIds sp sched path).1
      = (parse_queries_in_directory_or_file fs ext wordIds sp' sched path).1 := by
  unfold parse_queries_in_directory_or_file
  cases enumerateParts fs path with
  | none => rfl
  | some parts =>
    dsimp only
    cases parMapSched sched (partParse ext wordIds fs.readFile) parts with
    | none => rfl
    | some res =>
      dsimp only
      cases res.mapM id <;> rfl

/-! Claim theorems. -/

/-- C1: for every query dataset of size `n` and every chunk count, the
chunked vectorizer emits exactly `n` vectors and the vector at index `i`
equals the embedding of query `i`: the chunked computation equals the
unchunked computation `allVectors`, so the input's query order is exactly
preserved in the output (the source fixes the chunk count to 100). -/
theorem chunked_vectorizer_preserves_order (n : Nat) (qAt : Nat → α)
    (sp : Bool) (numChunks : Nat) (h : 0 < numChunks) :
    (cqvChunked numChunks n qAt sp).1 = allVectors n qAt
    ∧ (compute_query_vectors_and_save_to_disk n qAt sp).1 = allVectors n qAt
    ∧ (compute_query_vectors_and_save_to_disk n qAt sp).1.length = n
    ∧ (∀ i, i < n →
        (compute_query_vectors_and_save_to_disk n qAt sp).1[i]? = some (qAt i)) := by
  have h2 : (compute_query_vectors_and_save_to_disk n qAt sp).1 = allVectors n qAt :=
    cqvChunked_fst 100 n qAt sp (by omega)
  refine ⟨cqvChunked_fst numChunks n qAt sp h, h2, ?_, ?_⟩
  · rw [h2, allVectors, List.length_map, List.length_range]
  · intro i hi
    rw [h2, allVectors, List.getElem?_map, List.getElem?_range hi]
    rfl

/-- C2: the collector's result equals tokenizing each part independently and
concatenating the per-part datasets in ascending lexicographic path order
(directory case) or tokenizing the single file (file case), for every worker
schedule; and the result is invariant under the filesystem's directory
listing order and under the schedules. -/
theorem collector_merge_spec_and_order_invariance :
    (∀ (fs : FS) (ext : Ext) (wordIds : WordMap) (sp : Bool) (sched : List Nat)
        (path : MPath) (parts : List MPath),
      enumerateParts fs path = some parts → coversSched sched parts.length →
      (parse_queries_in_directory_or_file fs ext wordIds sp sched path).1
        = collectorSpec fs ext wordIds path)
    ∧ (∀ (fs fs' : FS) (ext : Ext) (wordIds : WordMap) (sp sp' : Bool)
        (sched sched' : List Nat) (path : MPath) (es es' : List MPath),
      fs.isDir path = true → fs'.isDir path = true →
      fs.readFile = fs'.readFile →
      fs.readDir path = some es → fs'.readDir path = some es' → es.Perm es' →
      coversSched sched (List.insertionSort pathLe es).length →
      coversSched sched' (List.insertionSort pathLe es').length →
      (parse_queries_in_directory_or_file fs ext wordIds sp sched path).1
        = (parse_queries_in_directory_or_file fs' ext wordIds sp' sched' path).1) := by
  constructor
  · intro fs ext wordIds sp sched path parts hp hs
    exact parse_qdir_fst_eq_spec fs ext wordIds sp sched path parts hp hs
  · intro fs fs' ext wordIds sp sp' sched sched' path es es' hdir hdir' hrf hre
      hre' hperm hs hs'
    exact parse_qdir_fst_perm fs fs' ext wordIds sp sp' sched sched' path es es'
      hdir hdir' hrf hre hre' hperm hs hs'

/-- C3: the tokenizer decodes each line as a JSON string literal and yields
one token-id sequence per line in line order, each obtained from the text
after the last `:` (the whole line when no `:` occurs) split on whitespace;
e.g. decoded line "q1:region:red car" with vocabulary red ↦ 0, car ↦ 1
yields [0, 1]. -/
theorem tokenizer_line_semantics (ext : Ext) (wordIds : WordMap)
    (ls ds : List Line) (h : ls.mapM ext.jsonStr = some ds) :
    parseLines ext wordIds ls = some (ds.map (tokenizeLineD wordIds))
    ∧ (∀ b : Bytes, ext.linesOf b = some ls →
        parse_file ext wordIds b = parseLines ext wordIds ls)
    ∧ (∀ d : Line, ':' ∉ d → afterLastColonD d = d)
    ∧ tokenizeLineD exVocab (String.toList "q1:region:red car") = [0, 1] := by
  refine ⟨parseLines_eq ext wordIds ls ds h, ?_, ?_, ?_⟩
  · intro b hb
    unfold parse_file
    rw [hb, Option.some_bind]
  · intro d hd
    unfold afterLastColonD
    rw [splitOnChar_eq_single ':' d hd]
    rfl
  · decide

/-- C4: the vocabulary loader maps each decoded word to the 0-based line
index of its last occurrence: with no duplicates the map has exactly one
entry per line with ids matching line order, and with duplicates the later
line's id wins. -/
theorem vocabulary_loader_line_index_last_wins (ws : List Line) :
    (ws.Nodup → (buildWordMap ws).length = ws.length)
    ∧ (∀ k ∈ ws, (buildWordMap ws).lookup k = some (lastIdxOf k ws))
    ∧ (ws.Nodup → ∀ (i : Nat) (hi : i < ws.length),
        (buildWordMap ws).lookup ws[i] = some i)
    ∧ (∀ (fs : FS) (ext : Ext) (wp : MPath) (wb : Bytes) (raw : List Line),
        fs.readFile wp = some wb → ext.linesOf wb = some raw →
        raw.mapM ext.jsonStr = some ws →
        loadWordIds fs ext wp = some (buildWordMap ws)) := by
  refine ⟨fun h => length_buildWordMap ws h, ?_, ?_, ?_⟩
  · intro k hk
    rw [lookup_buildWordMap, if_pos hk]
  · intro h i hi
    rw [lookup_buildWordMap, if_pos (ws.getElem_mem hi),
      lastIdxOf_getElem ws h i hi]
  · intro fs ext wp wb raw h1 h2 h3
    unfold loadWordIds
    rw [h1, Option.some_bind, h2, Option.some_bind, h3]
    rfl

/-- C5: tokenization never fails on unknown terms: terms absent from the
vocabulary are silently dropped, every emitted id comes from a term present
in the vocabulary, relative order of the remaining terms is preserved (the
emitted ids form a sublist of the per-term lookups), a line whose terms are
all unknown yields the empty sequence, and every line still contributes one
(possibly empty) sequence to the dataset. -/
theorem unknown_terms_skipped_silently (wordIds : WordMap) (d : Line) :
    tokenizeLine wordIds d = some (tokenizeLineD wordIds d)
    ∧ ((tokenizeLineD wordIds d).map some).Sublist
        ((splitWhitespace (afterLastColonD d)).map (fun w => wordIds.lookup w))
    ∧ (∀ t ∈ tokenizeLineD wordIds d, ∃ w ∈ splitWhitespace (afterLastColonD d),
        wordIds.lookup w = some t)
    ∧ ((∀ w ∈ splitWhitespace (afterLastColonD d), wordIds.lookup w = none) →
        tokenizeLineD wordIds d = [])
    ∧ (∀ (ext : Ext) (ls ds : List Line), ls.mapM ext.jsonStr = some ds →
        ∃ out, parseLines ext wordIds ls = some out ∧ out.length = ls.length) := by
  refine ⟨tokenizeLine_eq_some wordIds d, ?_, ?_, ?_, ?_⟩
  · exact filterMap_map_some_sublist _ _
  · intro t ht
    obtain ⟨w, hw, hww⟩ := List.mem_filterMap.mp ht
    exact ⟨w, hw, hww⟩
  · intro hall
    exact List.filterMap_eq_nil_iff.mpr hall
  · intro ext ls ds h
    refine ⟨ds.map (tokenizeLineD wordIds), parseLines_eq ext wordIds ls ds h, ?_⟩
    rw [List.length_map, mapM_length_option ext.jsonStr ls ds h]

/-- C6: parts with identical decompressed text tokenize identically: a part
whose name ends with ".gz" is gunzipped before parsing, so when the gunzip
of the compressed part's bytes equals the plain part's bytes, the two parts
produce the same token-id sequences. -/
theorem gzip_transport_equivalence (ext : Ext) (wordIds : WordMap)
    (readF : MPath → Option Bytes) (p1 p2 : MPath) (b1 b2 : Bytes)
    (s1 s2 : Line)
    (h1 : readF p1 = some b1) (h2 : readF p2 = some b2)
    (hu1 : ext.utf8 p1 = some s1) (hgz1 : endsWithGz s1 = true)
    (hu2 : ext.utf8 p2 = some s2) (hgz2 : endsWithGz s2 = false)
    (hzip : ext.gunzip b1 = some b2) :
    partParse ext wordIds readF p1 = partParse ext wordIds readF p2 := by
  simp [partParse, h1, h2, hu1, hu2, hgz1, hgz2, hzip]

/-- C7: any unreadable part, invalid gzip stream or malformed JSON line
aborts the entire run: the collector returns a dataset only when every part
tokenizes, and the result then is the merge of all parts; any failing part
makes the whole result `none` (no partial success). -/
theorem fail_fast_no_partial_success (fs : FS) (ext : Ext) (wordIds : WordMap)
    (sp : Bool) (sched : List Nat) (path : MPath) (parts : List MPath)
    (hp : enumerateParts fs path = some parts)
    (hs : coversSched sched parts.length) :
    ((∃ p ∈ parts, partParse ext wordIds fs.readFile p = none) →
      (parse_queries_in_directory_or_file fs ext wordIds sp sched path).1 = none)
    ∧ (∀ out, (parse_queries_in_directory_or_file fs ext wordIds sp sched path).1
          = some out →
        ∃ qvs, parts.mapM (partParse ext wordIds fs.readFile) = some qvs
          ∧ out = qvs.flatten)
    ∧ (∀ p, fs.readFile p = none → partParse ext wordIds fs.readFile p = none)
    ∧ (∀ p b s, fs.readFile p = some b → ext.utf8 p = some s →
        endsWithGz s = true → ext.gunzip b = none →
        partParse ext wordIds fs.readFile p = none)
    ∧ (∀ p b s ls l, fs.readFile p = some b → ext.utf8 p = some s →
        endsWithGz s = false → ext.linesOf b = some ls → l ∈ ls →
        ext.jsonStr l = none → partParse ext wordIds fs.readFile p = none) := by
  refine ⟨?_, ?_, ?_, ?_, ?_⟩
  · rintro ⟨p, hmem, hnone⟩
    rw [parse_qdir_fst_eq fs ext wordIds sp sched path parts hp hs,
      mapM_eq_none_of_mem _ parts p hmem hnone]
    rfl
  · intro out hout
    rw [parse_qdir_fst_eq fs ext wordIds sp sched path parts hp hs] at hout
    cases hqs : parts.mapM (partParse ext wordIds fs.readFile) with
    | none => rw [hqs] at hout; simp at hout
    | some qvs =>
      rw [hqs] at hout
      simp only [Option.map_some', Option.some.injEq] at hout
      exact ⟨qvs, rfl, hout.symm⟩
  · intro p h
    unfold partParse
    rw [h]
  · intro p b s hb hu hgz hz
    simp [partParse, hb, hu, hgz, hz]
  · intro p b s ls l hb hu hgz hls hl hjson
    have hpf : parse_file ext wordIds b = none := by
      unfold parse_file
      rw [hls, Option.some_bind]
      unfold parseLines
      exact mapM_eq_none_of_mem _ ls l hl (by rw [hjson]; rfl)
    simp [partParse, hb, hu, hgz, hpf]

/-- C8: the `show_progress` flag never affects the produced query dataset or
query vectors: each pipeline's data output is identical with the flag on
and off (progress reporting is purely observational). -/
theorem show_progress_observational (fs : FS) (ext : Ext) (wordIds : WordMap)
    (sched : List Nat) (path qp wp : MPath) (n : Nat) (qAt : Nat → α) :
    (parse_queries_in_directory_or_file fs ext wordIds true sched path).1
      = (parse_queries_in_directory_or_file fs ext wordIds false sched path).1
    ∧ (parse_queries_and_save_to_disk fs ext qp wp true sched).1
      = (parse_queries_and_save_to_disk fs ext qp wp false sched).1
    ∧ (compute_query_vectors_and_save_to_disk n qAt true).1
      = (compute_query_vectors_and_save_to_disk n qAt false).1 := by
  refine ⟨parse_qdir_fst_flag fs ext wordIds sched path true false, ?_,
    cqvChunked_fst_flag 100 n qAt true false⟩
  unfold parse_queries_and_save_to_disk
  cases loadWordIds fs ext wp with
  | none => rfl
  | some wordIds' => exact parse_qdir_fst_flag fs ext wordIds' sched qp true false

/-- C9: extracting the text after the last `:` never fails: splitting any
decoded string on `:` yields at least one segment, so the failure branch of
`tokenizeLine` is unreachable and it always returns a value. -/
theorem split_last_never_fails (wordIds : WordMap) (l : Line) :
    splitOnChar ':' l ≠ []
    ∧ afterLastColon l = some (afterLastColonD l)
    ∧ tokenizeLine wordIds l = some (tokenizeLineD wordIds l) :=
  ⟨splitOnChar_ne_nil ':' l, afterLastColon_eq_some l,
    tokenizeLine_eq_some wordIds l⟩

/-- C10: a part whose path is not valid UTF-8 is fatal even when its file is
readable: the `.gz` suffix test converts the path to UTF-8 first, so the
part aborts and with it the whole collector run. -/
theorem non_utf8_path_fatal (fs : FS) (ext : Ext) (wordIds : WordMap)
    (sp : Bool) (sched : List Nat) (path p : MPath) (parts : List MPath)
    (b : Bytes)
    (hb : fs.readFile p = some b) (hu : ext.utf8 p = none)
    (hp : enumerateParts fs path = some parts) (hmem : p ∈ parts)
    (hs : coversSched sched parts.length) :
    partParse ext wordIds fs.readFile p = none
    ∧ (parse_queries_in_directory_or_file fs ext wordIds sp sched path).1
        = none := by
  have hpp : partParse ext wordIds fs.readFile p = none := by
    simp [partParse, hb, hu]
  refine ⟨hpp, ?_⟩
  rw [parse_qdir_fst_eq fs ext wordIds sp sched path parts hp hs,
    mapM_eq_none_of_mem _ parts p hmem hpp]
  rfl

/-! Closed instantiations of the theorems with hypotheses. -/

/-- Witness for C1 at `n = 5`, chunk count 3 and a concrete embedding. -/
theorem chunked_vectorizer_preserves_order_witness :
    (cqvChunked 3 5 (fun i => i * 10) true).1 = allVectors 5 (fun i => i * 10)
    ∧ (compute_query_vectors_and_save_to_disk 5 (fun i => i * 10) true).1
        = allVectors 5 (fun i => i * 10) :=
  ⟨(chunked_vectorizer_preserves_order 5 (fun i => i * 10) true 3 (by decide)).1,
    (chunked_vectorizer_preserves_order 5 (fun i => i * 10) true 3 (by decide)).2.1⟩

/-- Witness for C2 on the fixture filesystem: an out-of-order schedule and a
permuted directory listing leave the merged dataset unchanged. -/
theorem collector_merge_spec_and_order_invariance_witness :
    (parse_queries_in_directory_or_file wFS wExt exVocab true [1, 0] [0]).1
      = collectorSpec wFS wExt exVocab [0]
    ∧ (parse_queries_in_directory_or_file wFS wExt exVocab true [1, 0] [0]).1
      = (parse_queries_in_directory_or_file wFS2 wExt exVocab false [0, 1] [0]).1 :=
  ⟨collector_merge_spec_and_order_invariance.1 wFS wExt exVocab true [1, 0] [0]
      [[1], [2]] (by decide) (by decide),
    collector_merge_spec_and_order_invariance.2 wFS wFS2 wExt exVocab true false
      [1, 0] [0, 1] [0] [[2], [1]] [[1], [2]] (by decide) (by decide) rfl
      (by decide) (by decide) (by decide) (by decide) (by decide)⟩

/-- Witness for C3 on a concrete decoded line. -/
theorem tokenizer_line_semantics_witness :
    parseLines wExt exVocab [String.toList "q1:region:red car"]
      = some ([String.toList "q1:region:red car"].map (tokenizeLineD exVocab))
    ∧ tokenizeLineD exVocab (String.toList "q1:region:red car") = [0, 1] :=
  ⟨(tokenizer_line_semantics wExt exVocab [String.toList "q1:region:red car"]
      [String.toList "q1:region:red car"] (by decide)).1,
    (tokenizer_line_semantics wExt exVocab [String.toList "q1:region:red car"]
      [String.toList "q1:region:red car"] (by decide)).2.2.2⟩

/-- Witness for C4: two distinct words get ids 0 and 1, and with a duplicate
the last line's id wins. -/
theorem vocabulary_loader_line_index_last_wins_witness :
    (buildWordMap [String.toList "red", String.toList "car"]).length = 2
    ∧ (buildWordMap
        [String.toList "red", String.toList "car", String.toList "red"]).lookup
          (String.toList "red")
      = some (lastIdxOf (String.toList "red")
          [String.toList "red", String.toList "car", String.toList "red"]) :=
  ⟨(vocabulary_loader_line_index_last_wins
      [String.toList "red", String.toList "car"]).1 (by decide),
    (vocabulary_loader_line_index_last_wins
      [String.toList "red", String.toList "car", String.toList "red"]).2.1
      (String.toList "red") (by decide)⟩

/-- Witness for C5 on a line whose terms are all unknown. -/
theorem unknown_terms_skipped_silently_witness :
    tokenizeLine exVocab (String.toList "xyz qq")
      = some (tokenizeLineD exVocab (String.toList "xyz qq"))
    ∧ tokenizeLineD exVocab (String.toList "xyz qq") = [] :=
  ⟨(unknown_terms_skipped_silently exVocab (String.toList "xyz qq")).1,
    (unknown_terms_skipped_silently exVocab (String.toList "xyz qq")).2.2.2.1
      (by decide)⟩

/-- Witness for C6: the fixture's gzip part and plain part parse alike. -/
theorem gzip_transport_equivalence_witness :
    partParse wExt exVocab wFS.readFile [1] = partParse wExt exVocab wFS.readFile [2] :=
  gzip_transport_equivalence wExt exVocab wFS.readFile [1] [2] [10] [20]
    (String.toList "a.gz") (String.toList "b")
    (by decide) (by decide) (by decide) (by decide) (by decide) (by decide)
    (by decide)

/-- Witness for C7: an unreadable single part makes the whole run abort. -/
theorem fail_fast_no_partial_success_witness :
    partParse wExt exVocab wFS.readFile [5] = none
    ∧ (parse_queries_in_directory_or_file wFS wExt exVocab true [0] [5]).1
        = none := by
  have h := fail_fast_no_partial_success wFS wExt exVocab true [0] [5] [[5]]
    (by decide) (by decide)
  have hnone : partParse wExt exVocab wFS.readFile [5] = none :=
    h.2.2.1 [5] (by decide)
  exact ⟨hnone, h.1 ⟨[5], by decide, hnone⟩⟩

/-- Witness for C10: a readable file under a non-UTF-8 path still aborts. -/
theorem non_utf8_path_fatal_witness :
    partParse wExt exVocab wFS.readFile [3] = none
    ∧ (parse_queries_in_directory_or_file wFS wExt exVocab false [0] [3]).1
        = none :=
  non_utf8_path_fatal wFS wExt exVocab false [0] [3] [3] [[3]] [30]
    (by decide) (by decide) (by decide) (by decide) (by decide)

end Granne
